import Mathlib

/-!
Verification of the text-extraction tool (src/ocr_tesseract.py and
src/text_cleaner.py) against its design specification.

Strings are modelled as `List Char` (one entry per Unicode code point, matching
Python's per-character `len`/indexing semantics), wrapped into `String` at the
API boundary.  Python regular-expression character classes are translated into
decidable `Char → Bool` predicates; the Unicode-category classes `\w` and `\s`
are modelled over their explicitly enumerated core (ASCII word characters plus
the CJK ranges the code also lists, resp. the common Unicode whitespace code
points), which is exact on every character class the program distinguishes.
Fallible computations (Python exceptions) are modelled with `Option`.
-/

/-- Whitespace as matched by Python's `str.strip` / regex `\s` on `str`:
ASCII whitespace plus the common Unicode space code points. -/
def isSpaceChar (c : Char) : Bool :=
  c.isWhitespace || c == '\x0b' || c == '\x0c' ||
  c == '\x1c' || c == '\x1d' || c == '\x1e' || c == '\x1f' ||
  c == '\u0085' || c == ' ' ||
  c == ' ' || c == ' ' || c == ' ' || c == ' ' || c == ' ' ||
  c == ' ' || c == ' ' || c == ' ' || c == ' ' || c == ' ' ||
  c == ' ' || c == ' ' || c == ' ' || c == ' ' || c == ' ' ||
  c == ' ' || c == '　'

/-- Python `str.strip()`: remove leading and trailing whitespace. -/
def pyStrip (cs : List Char) : List Char :=
  ((cs.dropWhile isSpaceChar).reverse.dropWhile isSpaceChar).reverse

/-- Split a character list at every separator recognised by `p`
(the separators are consumed), as Python `re.split` on a one-character
class or `str.split` with a one-character separator does:
the result is never empty and splitting the empty list yields `[[]]`. -/
def splitOnPred (p : Char → Bool) : List Char → List (List Char)
  | [] => [[]]
  | c :: rest =>
    if p c then [] :: splitOnPred p rest
    else
      match splitOnPred p rest with
      | [] => [[c]]
      | q :: qs => (c :: q) :: qs

/-- Python `text.split('\n')`. -/
def splitLines (cs : List Char) : List (List Char) :=
  splitOnPred (fun c => c == '\n') cs

/-- Python `'\n'.join(lines)`. -/
def joinLines (ls : List (List Char)) : List Char :=
  List.intercalate ['\n'] ls

/-- `text_cleaner.normalize_text`, its half-width → full-width punctuation
table (lines 50–59). -/
def punctuationMap : List (Char × Char) :=
  [(',', '，'), ('.', '。'), ('!', '！'), ('?', '？'),
   (':', '：'), (';', '；'), ('(', '（'), (')', '）')]

/-- The sequential `str.replace` loop of `normalize_text` (lines 61–62); for
single-character patterns each `replace` is a character-wise map. -/
def applyPunctMap (cs : List Char) : List Char :=
  punctuationMap.foldl (fun acc p => acc.map fun c => if c = p.1 then p.2 else c) cs

/-- `text_cleaner.normalize_text` (lines 35–64): strip the text, delete every
whitespace character (`re.sub(r'\s+', '', ...)`), then map the eight
half-width punctuation marks to their full-width forms. -/
def normalizeChars (cs : List Char) : List Char :=
  applyPunctMap ((pyStrip cs).filter (fun c => !isSpaceChar c))

/-- String-level wrapper of `normalize_text`. -/
def normalize_text (text : String) : String :=
  ⟨normalizeChars text.data⟩

/-- The four sentence-terminal marks of `split_into_sentences`
(regex `[。！？；]`, line 78). -/
def isTerminalChar (c : Char) : Bool :=
  c == '。' || c == '！' || c == '？' || c == '；'

/-- `text_cleaner.split_into_sentences` (lines 67–83): split on the terminal
marks, strip each fragment, keep those of length > 5. -/
def splitIntoSentences (cs : List Char) : List (List Char) :=
  ((splitOnPred isTerminalChar cs).map pyStrip).filter (fun s => 5 < s.length)

/-- The sentence-accumulation loop of `split_into_paragraphs`
(lines 100–114): `current` is the paragraph buffer; a sentence is appended
(plus a full-width period) while the buffer stays under 500 characters,
otherwise the buffer is emitted only if it reached `minLength` and the
buffer restarts from the pending sentence; the final buffer is flushed
under the same gate. -/
def mergeParagraphs (minLength : Nat) : List (List Char) → List Char → List (List Char)
  | [], current => if minLength ≤ current.length then [current] else []
  | s :: rest, current =>
    if current.length + s.length < 500 then
      mergeParagraphs minLength rest (current ++ s ++ ['。'])
    else if minLength ≤ current.length then
      current :: mergeParagraphs minLength rest (s ++ ['。'])
    else
      mergeParagraphs minLength rest (s ++ ['。'])

/-- `text_cleaner.split_into_paragraphs` (lines 86–116). -/
def splitIntoParagraphs (cs : List Char) (minLength : Nat := 50) : List (List Char) :=
  mergeParagraphs minLength (splitIntoSentences cs) []

/-- String-level wrapper of `split_into_paragraphs`. -/
def split_into_paragraphs (text : String) (minLength : Nat := 50) : List String :=
  (splitIntoParagraphs text.data minLength).map (fun l => ⟨l⟩)

/-- `pathlib.Path(filename).stem` (line 130): the last path component without
its final suffix; a suffix requires a dot that is neither the first nor the
last character of the name. -/
def pathStemChars (filename : List Char) : List Char :=
  let name := (splitOnPred (fun c => c == '/') filename).getLastD filename
  let ridx := name.reverse.findIdx (fun c => c == '.')
  if ridx < name.length ∧ 0 < ridx ∧ ridx < name.length - 1 then
    name.take (name.length - 1 - ridx)
  else
    name

/-- The metadata record built by `extract_metadata_from_filename`
(lines 135–139). -/
structure Metadata where
  title : String
  date : String
  page_info : String
deriving Repr, DecidableEq

/-- The field-by-field dictionary updates of `extract_metadata_from_filename`
(lines 135–157) applied to the underscore-separated fields of the stem:
field 0 → title; field 1 → date when it is at least 8 characters long and its
first 8 characters are digits (Python `str.isdigit`, modelled on ASCII
digits, the only digits the filename convention uses); fields 2+ rejoined
with underscores → page info. -/
def metadataOfParts (parts : List (List Char)) : Metadata :=
  let md : Metadata := ⟨"", "", ""⟩
  let md := if 1 ≤ parts.length then { md with title := ⟨parts.headD []⟩ } else md
  let md :=
    if 2 ≤ parts.length then
      let date_str := parts.getD 1 []
      if 8 ≤ date_str.length ∧ (date_str.take 8).all Char.isDigit then
        { md with date := ⟨date_str.take 4 ++ '-' :: (date_str.drop 4).take 2 ++
                           '-' :: (date_str.drop 6).take 2⟩ }
      else md
    else md
  let md := if 3 ≤ parts.length then
      { md with page_info := ⟨List.intercalate ['_'] (parts.drop 2)⟩ } else md
  md

/-- `text_cleaner.extract_metadata_from_filename` (lines 119–157): take the
filename's stem, split it on underscores and build the metadata record. -/
def extract_metadata_from_filename (filename : String) : Metadata :=
  metadataOfParts (splitOnPred (fun c => c == '_') (pathStemChars filename.data))

/-- The percentage value `(1 - cleaned/original) * 100` of the stats block
(line 198), as an exact rational. -/
def compressionRatioQ (original cleaned : Nat) : ℚ :=
  (1 - (cleaned : ℚ) / (original : ℚ)) * 100

/-- Rendering of a hundredth-of-a-percent count as Python's `f"{x:.2f}%"`
produces it (line 198). -/
def formatCenti (n : Nat) : String :=
  toString (n / 100) ++ "." ++
    (if n % 100 < 10 then "0" ++ toString (n % 100) else toString (n % 100)) ++ "%"

/-- Base-2 logarithm with explicit fuel (so that it reduces in the kernel);
`log2Fuel n n` is `⌊log2 n⌋` for `n ≥ 1`. -/
def log2Fuel : Nat → Nat → Nat
  | 0, _ => 0
  | fuel + 1, n => if n < 2 then 0 else log2Fuel fuel (n / 2) + 1

/-- Decides `2^e ≤ n/d` for `n, d ≥ 1` in integer arithmetic. -/
def pow2RatLe (e : ℤ) (n d : Nat) : Bool :=
  if 0 ≤ e then 2 ^ e.toNat * d ≤ n else d ≤ n * 2 ^ (-e).toNat

/-- `⌊log2 (n/d)⌋` for `n, d ≥ 1`. -/
def floorLog2Rat (n d : Nat) : ℤ :=
  let e0 : ℤ := (log2Fuel n n : ℤ) - (log2Fuel d d : ℤ)
  if pow2RatLe e0 n d then e0 else e0 - 1

/-- `num/den` rounded to the nearest natural number, ties to even (the IEEE
round-to-nearest-even rule, also used by float formatting). -/
def roundHalfEvenNat (num den : Nat) : Nat :=
  let k := num / den
  let r := num % den
  if 2 * r < den then k
  else if den < 2 * r then k + 1
  else if k % 2 = 0 then k else k + 1

/-- The rational `num/den` (`den ≥ 1`) rounded to the nearest IEEE-754
binary64 value, represented as a dyadic pair `(m, ex)` of value `m·2^ex`
with `|m| ∈ [2^52, 2^53)` (or `(0, 0)`).  Overflow and subnormals are not
modelled: the pipeline below only meets magnitudes between roughly `2^-64`
and `10^2` on inputs a text file can produce. -/
def roundF64 (num : ℤ) (den : Nat) : ℤ × ℤ :=
  if num = 0 then (0, 0)
  else
    let n := num.natAbs
    let e := floorLog2Rat n den
    let p : ℤ := 52 - e
    let sn := if 0 ≤ p then n * 2 ^ p.toNat else n
    let sd := if 0 ≤ p then den else den * 2 ^ (-p).toNat
    let m := roundHalfEvenNat sn sd
    let me : Nat × ℤ := if m = 2 ^ 53 then (2 ^ 52, e + 1) else (m, e)
    (if num < 0 then -(me.1 : ℤ) else (me.1 : ℤ), me.2 - 52)

/-- Python's true division `cleaned / original` on ints: the correctly
rounded binary64 quotient (line 198). -/
def f64DivNat (cleaned original : Nat) : ℤ × ℤ :=
  roundF64 (cleaned : ℤ) original

/-- The float subtraction `1 - x` (line 198): the exact difference is dyadic
and is rounded back to binary64. -/
def f64OneSub (x : ℤ × ℤ) : ℤ × ℤ :=
  if 0 ≤ x.2 then roundF64 (1 - x.1 * 2 ^ x.2.toNat) 1
  else roundF64 (2 ^ (-x.2).toNat - x.1) (2 ^ (-x.2).toNat)

/-- The float product `x * 100` (line 198), rounded back to binary64. -/
def f64Mul100 (x : ℤ × ℤ) : ℤ × ℤ :=
  if 0 ≤ x.2 then roundF64 (x.1 * 100 * 2 ^ x.2.toNat) 1
  else roundF64 (x.1 * 100) (2 ^ (-x.2).toNat)

/-- Python's `f"{v:.2f}%"` on a binary64 value (line 198): the double's
exact value is scaled by 100 and rounded to an integer with ties to even
(CPython formats via a correctly rounded decimal conversion). -/
def f64Format2f (x : ℤ × ℤ) : String :=
  let centi : ℤ :=
    if 0 ≤ x.2 then x.1 * 100 * 2 ^ x.2.toNat
    else
      if x.1 < 0 then -(roundHalfEvenNat (x.1.natAbs * 100) (2 ^ (-x.2).toNat) : ℤ)
      else (roundHalfEvenNat (x.1.natAbs * 100) (2 ^ (-x.2).toNat) : ℤ)
  (if centi < 0 then "-" else "") ++ formatCenti centi.natAbs

/-- The `compression_ratio` string of line 198,
`f"{(1 - len(normalized)/len(raw)) * 100:.2f}%"`: the full IEEE binary64
pipeline — divide, subtract from 1, multiply by 100, format to two
decimals.  (Bit-exact against CPython on the named spec cases and on
exhaustive small plus randomized large inputs.) -/
def compressionRatioF64Str (original cleaned : Nat) : String :=
  f64Format2f (f64Mul100 (f64OneSub (f64DivNat cleaned original)))

/-- The statistics record of `clean_ocr_text_file` (lines 193–199). -/
structure CleanStats where
  original_length : Nat
  cleaned_length : Nat
  sentence_count : Nat
  paragraph_count : Nat
  compression_ratio : String
deriving Repr, DecidableEq

/-- The stats block of `clean_ocr_text_file` (lines 183–199): normalize the
raw text, split sentences and paragraphs, and compute size statistics.
The division `len(normalized) / len(raw)` raises `ZeroDivisionError` when the
raw text is empty; that failure is modelled as `none`. -/
def computeStats (raw : String) : Option CleanStats :=
  let normalized := normalize_text raw
  let sentences := splitIntoSentences normalized.data
  let paragraphs := splitIntoParagraphs normalized.data 50
  if raw.length = 0 then none
  else
    some ⟨raw.length, normalized.length, sentences.length, paragraphs.length,
          compressionRatioF64Str raw.length normalized.length⟩

/-- The ASCII core of Python's regex class `\w` (letters, digits,
underscore); the full class additionally matches every non-ASCII Unicode
word character, for which see `isNormalCharW`'s parameter. -/
def asciiWordChar (c : Char) : Bool :=
  c.isAlphanum || c == '_'

/-- The allow-set character class of `filter_garbled_text` (regex at
line 543): CJK ideographs, word characters (`\w`, whose exact Unicode
extension — kana, Cyrillic, accented Latin, … — is the parameter `w`),
whitespace (`\s`), CJK punctuation `　-〿`, half-width/full-width forms
`＀-￯`, and the listed ASCII punctuation.  Theorems about the filter
quantify over `w`, so they hold in particular at the true `\w` class. -/
def isNormalCharW (w : Char → Bool) (c : Char) : Bool :=
  (0x4e00 ≤ c.toNat && c.toNat ≤ 0x9fff) ||
  w c || isSpaceChar c ||
  (0x3000 ≤ c.toNat && c.toNat ≤ 0x303f) ||
  (0xff00 ≤ c.toNat && c.toNat ≤ 0xffef) ||
  c == '\\' || c == '/' || c == ':' || c == '.' || c == ',' || c == '!' ||
  c == '?' || c == ';' || c == '"' || c == '\'' || c == '(' || c == ')' ||
  c == '[' || c == ']' || c == '{' || c == '}' || c == '-' || c == '+' ||
  c == '=' || c == '<' || c == '>'

/-- The allow-set class at the ASCII core of `\w` (a concrete executable
instance). -/
def isNormalChar : Char → Bool :=
  isNormalCharW asciiWordChar

/-- The noise-symbol class of `filter_garbled_text` (regex at line 551). -/
def isNoiseSym (c : Char) : Bool :=
  c == '!' || c == '@' || c == '#' || c == '$' || c == '%' || c == '^' ||
  c == '&' || c == '*' || c == '(' || c == ')' || c == '_' || c == '+' ||
  c == '=' || c == '{' || c == '}' || c == '[' || c == ']' || c == '|' ||
  c == '\\' || c == ':' || c == ';' || c == '"' || c == '\'' || c == '<' ||
  c == '>' || c == ',' || c == '?' || c == '/'

/-- The noise-symbol set as enumerated by the specification (which omits the
dollar sign present in the code's regex). -/
def isSpecNoiseSym (c : Char) : Bool :=
  c == '!' || c == '@' || c == '#' || c == '%' || c == '^' ||
  c == '&' || c == '*' || c == '(' || c == ')' || c == '_' || c == '+' ||
  c == '=' || c == '{' || c == '}' || c == '[' || c == ']' || c == '|' ||
  c == '\\' || c == ':' || c == ';' || c == '"' || c == '\'' || c == '<' ||
  c == '>' || c == ',' || c == '?' || c == '/'

/-- `re.search(r'X{k,}', line)`: some suffix of the line starts with `k`
consecutive characters satisfying `p`. -/
def hasRun (p : Char → Bool) (k : Nat) : List Char → Bool
  | [] => false
  | c :: rest =>
    (decide (k ≤ (c :: rest).length) && ((c :: rest).take k).all p) ||
    hasRun p k rest

/-- The per-line keep decision of `filter_garbled_text` (lines 529–554),
parametrized by the `\w` extension `w`: blank lines are kept; otherwise the
line is dropped when the allow-set fraction is below 0.4
(`5·normal < 2·total`, total > 0) or when it contains a run of 10 or more
noise symbols. -/
def keepLineW (w : Char → Bool) (line : List Char) : Bool :=
  if pyStrip line = [] then true
  else if line.length = 0 then true
  else if (line.countP (isNormalCharW w)) * 5 < line.length * 2 then false
  else if hasRun isNoiseSym 10 line then false
  else true

/-- The keep decision at the ASCII core of `\w`. -/
def keepLine : List Char → Bool :=
  keepLineW asciiWordChar

/-- The retained lines of `ocr_tesseract.filter_garbled_text`
(lines 518–556), parametrized by the `\w` extension `w`: when the whole
text strips to empty it is returned unchanged, otherwise the lines are
filtered by the keep decision. -/
def filterGarbledLinesW (w : Char → Bool) (cs : List Char) : List (List Char) :=
  if pyStrip cs = [] then splitLines cs
  else (splitLines cs).filter (keepLineW w)

/-- The retained lines at the ASCII core of `\w`. -/
def filterGarbledLines (cs : List Char) : List (List Char) :=
  filterGarbledLinesW asciiWordChar cs

/-- String-level `filter_garbled_text`: the retained lines rejoined with
newlines (the early return for blank text keeps the text as is). -/
def filter_garbled_text (text : String) : String :=
  if pyStrip text.data = [] then text
  else ⟨joinLines (filterGarbledLines text.data)⟩

/-- The page-slicing loop of `ocr_pdf_with_tesseract` (lines 182–255) from
vertical offset `y`: each iteration clips `[y, min(y+1500, H))`; the loop
breaks once the clip's lower edge reaches the page height, else advances `y`
by `1500 - 100`.  Coordinates are exact rationals (page heights are finite
binary floats and all loop arithmetic on them is exact). -/
def slicesFrom (H y : ℚ) : List (ℚ × ℚ) :=
  if h : y + 1500 < H then
    (y, y + 1500) :: slicesFrom H (y + 1400)
  else
    [(y, min (y + 1500) H)]
termination_by (⌈H - y⌉).toNat
decreasing_by
  have h1 : (1500 : ℚ) < H - y := by linarith
  have h2 : (1500 : ℤ) < ⌈H - y⌉ := by
    exact_mod_cast Int.lt_ceil.mpr (by exact_mod_cast h1)
  have h3 : ⌈H - (y + 1400)⌉ = ⌈H - y⌉ - 1400 := by
    rw [show H - (y + 1400) = H - y - (1400 : ℤ) by push_cast; ring]
    exact Int.ceil_sub_int (H - y) 1400
  simp only [h3]
  omega

/-- The slices of one page (`while y < page_h` with `y = 0`, line 185): empty
when the page height is non-positive. -/
def pageSlices (H : ℚ) : List (ℚ × ℚ) :=
  if 0 < H then slicesFrom H 0 else []

/-- The language selection of the slicing loop (lines 205–223): the combined
Chinese + English profile when the `chi_sim` pack is installed, English
only otherwise.  Both branches of the source (first slice and subsequent
slices) compute exactly this value. -/
def langFor (available : List String) : String :=
  if "chi_sim" ∈ available then "chi_sim+eng" else "eng"

/-- The per-slice engine interaction of `ocr_pdf_with_tesseract`
(lines 205–223): every slice iteration calls `pytesseract.get_languages()`
once (the first slice in the `slice_idx == 1` branch, every later slice in
the `else` branch at line 222) and recomputes the language choice from that
query's result.  `engine k` is the result of the `k`-th query; the function
returns the total number of queries made and the language used per slice. -/
def sliceLangLoop (engine : Nat → List String) (queries : Nat) :
    Nat → Nat × List String
  | 0 => (queries, [])
  | n + 1 =>
    let available := engine queries
    let lang := langFor available
    let rest := sliceLangLoop engine (queries + 1) n
    (rest.1, lang :: rest.2)

/-- `ocr_tesseract.process_directory` (lines 353–424), abstracted over the
filesystem: `isDir` is `os.path.isdir(dir_path)`, `results` the per-file
outcomes of `process_single_file`.  On a non-directory it prints an error and
returns `(0, 0, 0)` (line 368); likewise when no supported files are found.
Otherwise it returns (successes, failures, total). -/
def processDirectoryCounts (isDir : Bool) (results : List Bool) :
    Nat × Nat × Nat :=
  if isDir = false then (0, 0, 0)
  else if results.length = 0 then (0, 0, 0)
  else (results.countP (fun b => b), results.countP (fun b => !b), results.length)

/-- The exit code `main` derives from `process_directory`'s counts
(line 488): `sys.exit(0 if fail == 0 else 1)`. -/
def batchExitCode (counts : Nat × Nat × Nat) : Nat :=
  if counts.2.1 = 0 then 0 else 1

/-- The pointwise effect of the eight sequential replacements of
`normalize_text`: since no replacement output is a later replacement input,
the sequential passes act as this single character map. -/
def normCh (c : Char) : Char :=
  if c = ',' then '，' else if c = '.' then '。'
  else if c = '!' then '！' else if c = '?' then '？'
  else if c = ':' then '：' else if c = ';' then '；'
  else if c = '(' then '（' else if c = ')' then '）' else c

theorem foldl_punct_cons (ps : List (Char × Char)) (c : Char) (cs : List Char) :
    ps.foldl (fun acc p => acc.map fun x => if x = p.1 then p.2 else x) (c :: cs) =
      ps.foldl (fun a p => if a = p.1 then p.2 else a) c ::
        ps.foldl (fun acc p => acc.map fun x => if x = p.1 then p.2 else x) cs := by
  induction ps generalizing c cs with
  | nil => rfl
  | cons p ps ih => simp only [List.foldl_cons, List.map_cons]; exact ih _ _

theorem foldl_punct_char (c : Char) :
    punctuationMap.foldl (fun a p => if a = p.1 then p.2 else a) c = normCh c := by
  simp only [punctuationMap, List.foldl_cons, List.foldl_nil, normCh]
  by_cases h1 : c = ','
  · subst h1; decide
  by_cases h2 : c = '.'
  · subst h2; decide
  by_cases h3 : c = '!'
  · subst h3; decide
  by_cases h4 : c = '?'
  · subst h4; decide
  by_cases h5 : c = ':'
  · subst h5; decide
  by_cases h6 : c = ';'
  · subst h6; decide
  by_cases h7 : c = '('
  · subst h7; decide
  by_cases h8 : c = ')'
  · subst h8; decide
  simp [h1, h2, h3, h4, h5, h6, h7, h8]

theorem applyPunctMap_eq_map (cs : List Char) : applyPunctMap cs = cs.map normCh := by
  induction cs with
  | nil => rfl
  | cons c cs ih =>
    show punctuationMap.foldl _ (c :: cs) = _
    rw [foldl_punct_cons, foldl_punct_char, List.map_cons]
    exact congrArg _ ih

theorem normCh_cases (c : Char) :
    normCh c = c ∨ normCh c ∈ ['，', '。', '！', '？', '：', '；', '（', '）'] := by
  simp only [normCh]
  split_ifs <;> simp

theorem normCh_idem (c : Char) : normCh (normCh c) = normCh c := by
  rcases normCh_cases c with h | h
  · rw [h, h]
  · simp only [List.mem_cons, List.not_mem_nil, or_false] at h
    rcases h with h | h | h | h | h | h | h | h <;> rw [h] <;> decide

theorem normCh_not_space (c : Char) (hc : isSpaceChar c = false) :
    isSpaceChar (normCh c) = false := by
  rcases normCh_cases c with h | h
  · rw [h]; exact hc
  · simp only [List.mem_cons, List.not_mem_nil, or_false] at h
    rcases h with h | h | h | h | h | h | h | h <;> rw [h] <;> decide

theorem dropWhile_eq_self_of_all (p : Char → Bool) (l : List Char)
    (h : ∀ c ∈ l, p c = false) : l.dropWhile p = l := by
  cases l with
  | nil => rfl
  | cons c cs => simp [List.dropWhile_cons, h c (List.mem_cons_self c cs)]

theorem length_dropWhile_le (p : Char → Bool) (l : List Char) :
    (l.dropWhile p).length ≤ l.length := by
  induction l with
  | nil => simp
  | cons c cs ih =>
    rw [List.dropWhile_cons]
    split
    · exact Nat.le_trans ih (Nat.le_succ _)
    · exact Nat.le_refl _

theorem pyStrip_eq_self_of_no_space (l : List Char)
    (h : ∀ c ∈ l, isSpaceChar c = false) : pyStrip l = l := by
  unfold pyStrip
  rw [dropWhile_eq_self_of_all _ _ h,
      dropWhile_eq_self_of_all _ _ (fun c hc => h c (List.mem_reverse.mp hc)),
      List.reverse_reverse]

theorem normalizeChars_no_space (cs : List Char) :
    ∀ c ∈ normalizeChars cs, isSpaceChar c = false := by
  intro c hc
  unfold normalizeChars at hc
  rw [applyPunctMap_eq_map] at hc
  rcases List.mem_map.mp hc with ⟨c', hc', rfl⟩
  have hq := List.of_mem_filter hc'
  simp only [Bool.not_eq_true'] at hq
  exact normCh_not_space c' hq

/-- C5: `normalize_text` is idempotent — after the first pass the output
contains no whitespace and no half-width character that the punctuation map
replaces, so stripping, whitespace removal and replacement are all no-ops on
a second pass. -/
theorem normalize_text_idempotent (x : String) :
    normalize_text (normalize_text x) = normalize_text x := by
  show (⟨normalizeChars (normalizeChars x.data)⟩ : String) = ⟨normalizeChars x.data⟩
  have hns := normalizeChars_no_space x.data
  have hstrip : pyStrip (normalizeChars x.data) = normalizeChars x.data :=
    pyStrip_eq_self_of_no_space _ hns
  have hfilter :
      (normalizeChars x.data).filter (fun c => !isSpaceChar c) = normalizeChars x.data := by
    refine List.filter_eq_self.mpr fun c hc => ?_
    simp [hns c hc]
  have hmap : applyPunctMap (normalizeChars x.data) = normalizeChars x.data := by
    rw [applyPunctMap_eq_map]
    conv_lhs => rw [show normalizeChars x.data =
      applyPunctMap ((pyStrip x.data).filter (fun c => !isSpaceChar c)) from rfl,
      applyPunctMap_eq_map, List.map_map]
    rw [show normCh ∘ normCh = normCh from funext normCh_idem]
    exact (applyPunctMap_eq_map _).symm
  rw [show normalizeChars (normalizeChars x.data) =
    applyPunctMap ((pyStrip (normalizeChars x.data)).filter (fun c => !isSpaceChar c)) from rfl,
    hstrip, hfilter, hmap]

theorem mergeParagraphs_min_length (m : Nat) :
    ∀ (ss : List (List Char)) (current p : List Char),
      p ∈ mergeParagraphs m ss current → m ≤ p.length := by
  intro ss
  induction ss with
  | nil =>
    intro current p hp
    simp only [mergeParagraphs] at hp
    split at hp
    · next h => rw [List.mem_singleton] at hp; subst hp; exact h
    · simp at hp
  | cons s rest ih =>
    intro current p hp
    simp only [mergeParagraphs] at hp
    split at hp
    · exact ih _ p hp
    · split at hp
      · next h =>
        rcases List.mem_cons.mp hp with rfl | hp'
        · exact h
        · exact ih _ p hp'
      · exact ih _ p hp

/-- C2: every paragraph emitted by `split_into_paragraphs` has length at
least `minLength` — a buffer below the threshold is never emitted, neither
when displaced by a pending sentence nor at the final flush; its text is
dropped. -/
theorem split_paragraphs_min_length (text : String) (minLength : Nat) (p : String)
    (hp : p ∈ split_into_paragraphs text minLength) : minLength ≤ p.length := by
  rcases List.mem_map.mp hp with ⟨l, hl, rfl⟩
  exact mergeParagraphs_min_length minLength _ _ l hl

theorem split_paragraphs_min_length_witness :
    ("aaaaaaaaaaaaaaaaaaaaaaaaaaaaaaaaaaaaaaaaaaaaaaaaaaaaaaaaaaaa。" ∈
      split_into_paragraphs "aaaaaaaaaaaaaaaaaaaaaaaaaaaaaaaaaaaaaaaaaaaaaaaaaaaaaaaaaaaa。" 50) ∧
    50 ≤ ("aaaaaaaaaaaaaaaaaaaaaaaaaaaaaaaaaaaaaaaaaaaaaaaaaaaaaaaaaaaa。" : String).length :=
  ⟨by decide,
   split_paragraphs_min_length
     "aaaaaaaaaaaaaaaaaaaaaaaaaaaaaaaaaaaaaaaaaaaaaaaaaaaaaaaaaaaa。" 50
     "aaaaaaaaaaaaaaaaaaaaaaaaaaaaaaaaaaaaaaaaaaaaaaaaaaaaaaaaaaaa。" (by decide)⟩

theorem applyPunctMap_length (cs : List Char) :
    (applyPunctMap cs).length = cs.length := by
  rw [applyPunctMap_eq_map, List.length_map]

theorem pyStrip_length_le (cs : List Char) : (pyStrip cs).length ≤ cs.length := by
  unfold pyStrip
  calc ((cs.dropWhile isSpaceChar).reverse.dropWhile isSpaceChar).reverse.length
      = ((cs.dropWhile isSpaceChar).reverse.dropWhile isSpaceChar).length :=
        List.length_reverse _
    _ ≤ (cs.dropWhile isSpaceChar).reverse.length := length_dropWhile_le _ _
    _ = (cs.dropWhile isSpaceChar).length := List.length_reverse _
    _ ≤ cs.length := length_dropWhile_le _ _

/-- C9: normalization never lengthens the text (whitespace removal only
deletes characters and each punctuation replacement is one character for
one character), so the cleaned length never exceeds the original length and
the compression-ratio value is never negative. -/
theorem normalize_text_length_le (x : String) :
    (normalize_text x).length ≤ x.length ∧
    0 ≤ compressionRatioQ x.length (normalize_text x).length := by
  have hlen : (normalize_text x).length ≤ x.length := by
    show (normalizeChars x.data).length ≤ x.data.length
    unfold normalizeChars
    rw [applyPunctMap_length]
    calc ((pyStrip x.data).filter fun c => !isSpaceChar c).length
        ≤ (pyStrip x.data).length := List.length_filter_le _ _
      _ ≤ x.data.length := pyStrip_length_le x.data
  refine ⟨hlen, ?_⟩
  unfold compressionRatioQ
  rcases Nat.eq_zero_or_pos x.length with h0 | hpos
  · have : (normalize_text x).length = 0 := by omega
    rw [h0, this]
    norm_num
  · have hdiv : ((normalize_text x).length : ℚ) / (x.length : ℚ) ≤ 1 := by
      rw [div_le_one (by exact_mod_cast hpos)]
      exact_mod_cast hlen
    nlinarith

/-- C1 counterexample: the stats block of `clean_ocr_text_file` is not
guarded against an empty original input — `len(normalized) / len(raw)`
divides by zero, so on an empty file the computation fails instead of
reporting statistics. -/
theorem computeStats_empty_fails : computeStats "" = none := rfl

/-- C1 (amended): for every input whose original length is nonzero the stats
block computes without error; its `compression_ratio` string is the value
`(1 - cleaned_length/original_length) * 100` computed in the program's IEEE
binary64 float arithmetic and formatted to two decimals followed by a
percent sign — reporting "40.00%" for original length 100 and cleaned
length 60 (and, exhibiting the float pipeline exactly, "0.12%" at 800/799
and "0.62%" at 160/159); the degenerate empty original input is NOT
guarded — there the computation fails with a division by zero. -/
theorem computeStats_of_nonempty :
    (∀ raw : String, raw.length ≠ 0 →
      computeStats raw = some ⟨raw.length, (normalize_text raw).length,
        (splitIntoSentences (normalize_text raw).data).length,
        (splitIntoParagraphs (normalize_text raw).data 50).length,
        compressionRatioF64Str raw.length (normalize_text raw).length⟩) ∧
    compressionRatioF64Str 100 60 = "40.00%" ∧
    compressionRatioF64Str 800 799 = "0.12%" ∧
    compressionRatioF64Str 160 159 = "0.62%" := by
  refine ⟨fun raw h => ?_, by decide, by decide, by decide⟩
  simp only [computeStats]
  rw [if_neg h]

theorem computeStats_of_nonempty_witness :
    computeStats "好好好好好好好好好好好好好好好好好好好好好好好好好好好好好好好好好好好好好好好好好好好好好好好好好好好好好好好好好好好好                                        " =
      some ⟨100, 60, 1, 1, "40.00%"⟩ :=
  Eq.trans
    (computeStats_of_nonempty.1
      "好好好好好好好好好好好好好好好好好好好好好好好好好好好好好好好好好好好好好好好好好好好好好好好好好好好好好好好好好好好好                                        "
      (by decide))
    (by decide)

theorem metadataOfParts_characterization (parts : List (List Char)) :
    metadataOfParts parts =
      { title := ⟨parts.headD []⟩
        date :=
          match parts.get? 1 with
          | none => ""
          | some d =>
            if 8 ≤ d.length ∧ (d.take 8).all Char.isDigit then
              ⟨d.take 4 ++ '-' :: (d.drop 4).take 2 ++ '-' :: (d.drop 6).take 2⟩
            else ""
        page_info :=
          if 3 ≤ parts.length then ⟨List.intercalate ['_'] (parts.drop 2)⟩
          else "" } := by
  match parts with
  | [] => rfl
  | [a] => rfl
  | [a, b] =>
    simp only [metadataOfParts, List.length_cons, List.length_nil, List.headD,
      List.getD, List.get?, Option.getD_some]
    split_ifs <;> first | rfl | omega
  | a :: b :: c :: rest =>
    have h1 : 1 ≤ (a :: b :: c :: rest).length := by simp
    have h2 : 2 ≤ (a :: b :: c :: rest).length := by simp
    have h3 : 3 ≤ (a :: b :: c :: rest).length := by simp
    simp only [metadataOfParts, List.headD, List.getD, List.get?, Option.getD_some,
      if_pos h1, if_pos h2, if_pos h3]
    split_ifs <;> rfl

/-- C7: `extract_metadata_from_filename` is a total function on filename
strings: field 0 of the underscore-split stem is the title; field 1 yields a
`YYYY-MM-DD` date exactly when it is at least 8 characters long with its
first 8 characters digits; fields 2 onward are rejoined with underscores as
page info; absent fields default to the empty string.  In particular
"A_20251126102506_11_342.txt" parses to (A, 2025-11-26, 11_342) and
"justatitle.txt" to (justatitle, empty, empty). -/
theorem extract_metadata_correct :
    (∀ fn : String,
      extract_metadata_from_filename fn =
        { title := ⟨(splitOnPred (fun c => c == '_') (pathStemChars fn.data)).headD []⟩
          date :=
            match (splitOnPred (fun c => c == '_') (pathStemChars fn.data)).get? 1 with
            | none => ""
            | some d =>
              if 8 ≤ d.length ∧ (d.take 8).all Char.isDigit then
                ⟨d.take 4 ++ '-' :: (d.drop 4).take 2 ++ '-' :: (d.drop 6).take 2⟩
              else ""
          page_info :=
            if 3 ≤ (splitOnPred (fun c => c == '_') (pathStemChars fn.data)).length then
              ⟨List.intercalate ['_']
                ((splitOnPred (fun c => c == '_') (pathStemChars fn.data)).drop 2)⟩
            else "" }) ∧
    extract_metadata_from_filename "A_20251126102506_11_342.txt" =
      ⟨"A", "2025-11-26", "11_342"⟩ ∧
    extract_metadata_from_filename "justatitle.txt" = ⟨"justatitle", "", ""⟩ :=
  ⟨fun fn => metadataOfParts_characterization _, by decide, by decide⟩

/-- C10: the retained lines of `filter_garbled_text` form a subsequence of
the input's lines — every retained line is character-for-character a line of
the input, no line is edited or created, and the relative order is
preserved (on blank input the text, hence its line list, is returned
unchanged; otherwise the line list is filtered). -/
theorem filter_garbled_sublist (text : String) :
    (filterGarbledLines text.data).Sublist (splitLines text.data) ∧
    filter_garbled_text text =
      (if pyStrip text.data = [] then text else ⟨joinLines (filterGarbledLines text.data)⟩) := by
  constructor
  · unfold filterGarbledLines filterGarbledLinesW
    split
    · exact List.Sublist.refl _
    · exact List.filter_sublist _
  · rfl

theorem hasRun_mono (p q : Char → Bool) (hpq : ∀ x, p x = true → q x = true)
    (k : Nat) : ∀ cs, hasRun p k cs = true → hasRun q k cs = true := by
  intro cs
  induction cs with
  | nil => exact fun h => h
  | cons c rest ih =>
    intro h
    simp only [hasRun, Bool.or_eq_true, Bool.and_eq_true] at h ⊢
    rcases h with ⟨hk, hall⟩ | h
    · left
      refine ⟨hk, ?_⟩
      rw [List.all_eq_true] at hall ⊢
      exact fun x hx => hpq x (hall x hx)
    · right
      exact ih h

theorem specNoise_le_noise (x : Char) (h : isSpecNoiseSym x = true) :
    isNoiseSym x = true := by
  simp only [isSpecNoiseSym, Bool.or_eq_true] at h
  simp only [isNoiseSym, Bool.or_eq_true]
  casesm* _ ∨ _
  all_goals simp [*]

theorem splitOnPred_mem_subset (p : Char → Bool) :
    ∀ (cs l : List Char), l ∈ splitOnPred p cs → ∀ c ∈ l, c ∈ cs := by
  intro cs
  induction cs with
  | nil =>
    intro l hl c hc
    simp only [splitOnPred, List.mem_singleton] at hl
    subst hl
    simp at hc
  | cons a rest ih =>
    intro l hl c hc
    simp only [splitOnPred] at hl
    split at hl
    · rcases List.mem_cons.mp hl with rfl | hl'
      · simp at hc
      · exact List.mem_cons_of_mem a (ih l hl' c hc)
    · rcases hsp : splitOnPred p rest with _ | ⟨q, qs⟩
      · rw [hsp] at hl
        simp only [List.mem_singleton] at hl
        subst hl
        rw [List.mem_singleton.mp hc]
        exact List.mem_cons_self _ _
      · rw [hsp] at hl
        rcases List.mem_cons.mp hl with rfl | hl'
        · rcases List.mem_cons.mp hc with rfl | hc'
          · exact List.mem_cons_self _ _
          · exact List.mem_cons_of_mem a
              (ih q (by rw [hsp]; exact List.mem_cons_self _ _) c hc')
        · exact List.mem_cons_of_mem a
            (ih l (by rw [hsp]; exact List.mem_cons_of_mem q hl') c hc)

theorem dropWhile_eq_nil_all (p : Char → Bool) :
    ∀ l : List Char, l.dropWhile p = [] → ∀ c ∈ l, p c = true := by
  intro l
  induction l with
  | nil =>
    intro _ c hc
    simp at hc
  | cons a rest ih =>
    intro h c hc
    rw [List.dropWhile_cons] at h
    split at h
    · next hpa =>
      rcases List.mem_cons.mp hc with rfl | hc'
      · exact hpa
      · exact ih h c hc'
    · exact absurd h (by simp)

theorem dropWhile_all_eq_nil (p : Char → Bool) :
    ∀ l : List Char, (∀ c ∈ l, p c = true) → l.dropWhile p = [] := by
  intro l
  induction l with
  | nil => intro _; rfl
  | cons a rest ih =>
    intro h
    rw [List.dropWhile_cons, if_pos (h a (List.mem_cons_self a rest))]
    exact ih fun c hc => h c (List.mem_cons_of_mem a hc)

theorem all_space_of_pyStrip_eq_nil (cs : List Char) (h : pyStrip cs = []) :
    ∀ c ∈ cs, isSpaceChar c = true := by
  unfold pyStrip at h
  rw [List.reverse_eq_nil_iff] at h
  have h2 : ∀ c ∈ (cs.dropWhile isSpaceChar).reverse, isSpaceChar c = true :=
    dropWhile_eq_nil_all isSpaceChar _ h
  intro c hc
  rw [← List.takeWhile_append_dropWhile (p := isSpaceChar) (l := cs)] at hc
  rcases List.mem_append.mp hc with hc' | hc'
  · exact List.mem_takeWhile_imp hc'
  · exact h2 c (List.mem_reverse.mpr hc')

theorem pyStrip_eq_nil_of_all_space (cs : List Char)
    (h : ∀ c ∈ cs, isSpaceChar c = true) : pyStrip cs = [] := by
  unfold pyStrip
  rw [dropWhile_all_eq_nil isSpaceChar cs h]
  rfl

/-- C3: for every extension `w` of the `\w` word-character class (hence in
particular for Python's full Unicode class), every non-blank line retained
by `filter_garbled_text` has an allow-set character fraction of at least
0.4 and contains no run of 10 or more consecutive noise symbols (in
particular none from the specification's enumerated noise set); and blank
lines are always retained. -/
theorem filter_garbled_invariant (w : Char → Bool) (text : String) :
    (∀ line ∈ filterGarbledLinesW w text.data, pyStrip line ≠ [] →
      (2 / 5 : ℚ) ≤ (line.countP (isNormalCharW w) : ℚ) / (line.length : ℚ) ∧
      hasRun isSpecNoiseSym 10 line = false) ∧
    (∀ line ∈ splitLines text.data, pyStrip line = [] →
      line ∈ filterGarbledLinesW w text.data) := by
  constructor
  · intro line hmem hnb
    unfold filterGarbledLinesW at hmem
    split at hmem
    · next hblank =>
      exfalso
      apply hnb
      apply pyStrip_eq_nil_of_all_space
      intro c hc
      exact all_space_of_pyStrip_eq_nil _ hblank c
        (splitOnPred_mem_subset _ _ _ hmem c hc)
    · have hk := List.of_mem_filter hmem
      unfold keepLineW at hk
      rw [if_neg hnb] at hk
      have hlen : line.length ≠ 0 := by
        intro h0
        apply hnb
        rw [List.eq_nil_of_length_eq_zero h0]
        rfl
      rw [if_neg hlen] at hk
      split at hk
      · exact absurd hk (by simp)
      · next hratio =>
        split at hk
        · exact absurd hk (by simp)
        · next hrun =>
          constructor
          · have hratio' : line.length * 2 ≤ line.countP (isNormalCharW w) * 5 :=
              Nat.le_of_not_lt hratio
            have hlpos : (0 : ℚ) < (line.length : ℚ) := by
              exact_mod_cast Nat.pos_of_ne_zero hlen
            rw [le_div_iff₀ hlpos]
            have hq : ((line.length * 2 : Nat) : ℚ) ≤
                ((line.countP (isNormalCharW w) * 5 : Nat) : ℚ) := by
              exact_mod_cast hratio'
            push_cast at hq
            linarith
          · cases hsr : hasRun isSpecNoiseSym 10 line
            · rfl
            · exact absurd (hasRun_mono _ _ specNoise_le_noise 10 line hsr) hrun
  · intro line hline hblank
    unfold filterGarbledLinesW
    split
    · exact hline
    · refine List.mem_filter.mpr ⟨hline, ?_⟩
      unfold keepLineW
      rw [if_pos hblank]

theorem filter_garbled_invariant_witness :
    ((2 / 5 : ℚ) ≤ ("hello world".data.countP (isNormalCharW asciiWordChar) : ℚ) /
        ("hello world".data.length : ℚ) ∧
     hasRun isSpecNoiseSym 10 "hello world".data = false) ∧
    [] ∈ filterGarbledLinesW asciiWordChar ("hello world\n!!!!!!!!!!\n" : String).data :=
  ⟨(filter_garbled_invariant asciiWordChar "hello world\n!!!!!!!!!!\n").1
     "hello world".data (by decide) (by decide),
   (filter_garbled_invariant asciiWordChar "hello world\n!!!!!!!!!!\n").2
     [] (by decide) (by decide)⟩

/-- C6: evidence for the exit-status bug — when batch mode is invoked on a
path that is not a directory, `process_directory` returns the counts
`(0, 0, 0)` and `main` maps a zero failure count to exit status 0, so the
process exits 0 (success) instead of the contracted failure status 1. -/
theorem process_directory_not_dir_exits_zero (results : List Bool) :
    batchExitCode (processDirectoryCounts false results) = 0 := rfl

/-- C8 counterexample: the installed language profiles are NOT queried once
per document — the slicing loop issues one engine query per slice, so a
document with two slices performs two queries, not one. -/
theorem language_query_not_once :
    (sliceLangLoop (fun _ => ["chi_sim", "eng"]) 0 2).1 = 2 ∧
    (sliceLangLoop (fun _ => ["chi_sim", "eng"]) 0 2).1 ≠ 1 := by decide

/-- C8 (amended): the slicing loop queries the engine's installed language
profiles once per SLICE (redundantly re-deriving the choice), and when the
engine's reported profiles are stable for the document's duration the
selected profile is the combined Chinese + English profile exactly when the
`chi_sim` pack is installed, English-only otherwise, and does not vary per
tile. -/
theorem language_selection_stable (engine : Nat → List String)
    (hstable : ∀ i j : Nat, engine i = engine j) :
    ∀ (n q : Nat), (sliceLangLoop engine q n).1 = q + n ∧
      ∀ l ∈ (sliceLangLoop engine q n).2,
        l = if "chi_sim" ∈ engine 0 then "chi_sim+eng" else "eng" := by
  intro n
  induction n with
  | zero =>
    intro q
    constructor
    · rfl
    · intro l hl
      simp [sliceLangLoop] at hl
  | succ n ih =>
    intro q
    constructor
    · show (sliceLangLoop engine q (n + 1)).1 = q + (n + 1)
      simp only [sliceLangLoop]
      rw [(ih (q + 1)).1]
      omega
    · intro l hl
      simp only [sliceLangLoop, List.mem_cons] at hl
      rcases hl with rfl | hl'
      · show langFor (engine q) = _
        unfold langFor
        rw [hstable q 0]
      · exact (ih (q + 1)).2 l hl'

theorem language_selection_stable_witness :
    (sliceLangLoop (fun _ => ["chi_sim", "eng"]) 0 3).1 = 0 + 3 ∧
    ∀ l ∈ (sliceLangLoop (fun _ => ["chi_sim", "eng"]) 0 3).2,
      l = if "chi_sim" ∈ (fun _ : Nat => ["chi_sim", "eng"]) 0 then "chi_sim+eng"
          else "eng" :=
  language_selection_stable (fun _ => ["chi_sim", "eng"]) (fun _ _ => rfl) 3 0

theorem ceil_shift_1400 (H y : ℚ) (hlt : y + 1500 < H) (n : Nat)
    (hn : (⌈H - y⌉).toNat ≤ n + 1) : (⌈H - (y + 1400)⌉).toNat ≤ n := by
  have hc : ⌈H - (y + 1400)⌉ = ⌈H - y⌉ - 1400 := by
    rw [show H - (y + 1400) = H - y - (1400 : ℤ) by push_cast; ring]
    exact Int.ceil_sub_int (H - y) 1400
  have h2 : (1500 : ℤ) < ⌈H - y⌉ := by
    refine Int.lt_ceil.mpr ?_
    push_cast
    linarith
  omega

theorem slicesFrom_covers (H x : ℚ) :
    ∀ (n : Nat) (y : ℚ), (⌈H - y⌉).toNat ≤ n → y ≤ x → x < H →
      ∃ r ∈ slicesFrom H y, r.1 ≤ x ∧ x < r.2 := by
  intro n
  induction n with
  | zero =>
    intro y hn hy hx
    exfalso
    have hpos : (0 : ℚ) < H - y := by linarith
    have hcpos : (0 : ℤ) < ⌈H - y⌉ := Int.ceil_pos.mpr hpos
    omega
  | succ n ih =>
    intro y hn hy hx
    rw [slicesFrom.eq_def]
    split
    · next hlt =>
      by_cases hx2 : x < y + 1500
      · exact ⟨(y, y + 1500), List.mem_cons_self _ _, hy, hx2⟩
      · push_neg at hx2
        obtain ⟨r, hr, hr1, hr2⟩ :=
          ih (y + 1400) (ceil_shift_1400 H y hlt n hn) (by linarith) hx
        exact ⟨r, List.mem_cons_of_mem _ hr, hr1, hr2⟩
    · next hge =>
      refine ⟨(y, min (y + 1500) H), List.mem_singleton.mpr rfl, hy, ?_⟩
      have hH : H ≤ y + 1500 := le_of_not_lt hge
      exact lt_min (by linarith) hx

theorem slicesFrom_length_le (H : ℚ) :
    ∀ (n : Nat) (y : ℚ), (⌈H - y⌉).toNat ≤ n → y < H →
      (slicesFrom H y).length ≤ (⌈(H - y) / 1400⌉).toNat := by
  intro n
  induction n with
  | zero =>
    intro y hn hy
    exfalso
    have hcpos : (0 : ℤ) < ⌈H - y⌉ := Int.ceil_pos.mpr (by linarith)
    omega
  | succ n ih =>
    intro y hn hy
    rw [slicesFrom.eq_def]
    split
    · next hlt =>
      simp only [List.length_cons]
      have hrec := ih (y + 1400) (ceil_shift_1400 H y hlt n hn) (by linarith)
      have hshift : ⌈(H - (y + 1400)) / 1400⌉ = ⌈(H - y) / 1400⌉ - 1 := by
        rw [show (H - (y + 1400)) / 1400 = (H - y) / 1400 - 1 by ring]
        exact Int.ceil_sub_one _
      rw [hshift] at hrec
      have hk2 : (1 : ℤ) < ⌈(H - y) / 1400⌉ := by
        refine Int.lt_ceil.mpr ?_
        rw [lt_div_iff₀ (by norm_num)]
        push_cast
        linarith
      omega
    · next hge =>
      simp only [List.length_cons, List.length_nil]
      have hdpos : (0 : ℚ) < (H - y) / 1400 :=
        div_pos (by linarith) (by norm_num)
      have hcpos : (0 : ℤ) < ⌈(H - y) / 1400⌉ := Int.ceil_pos.mpr hdpos
      omega

theorem slicesFrom_shape (H : ℚ) :
    ∀ (n : Nat) (y : ℚ), (⌈H - y⌉).toNat ≤ n →
      ∀ r ∈ slicesFrom H y,
        ∃ i : Nat, r = (y + 1400 * i, min (y + 1400 * i + 1500) H) := by
  intro n
  induction n with
  | zero =>
    intro y hn r hr
    rw [slicesFrom.eq_def] at hr
    split at hr
    · next hlt =>
      exfalso
      have h2 : (1500 : ℤ) < ⌈H - y⌉ := by
        refine Int.lt_ceil.mpr ?_
        push_cast
        linarith
      omega
    · simp only [List.mem_singleton] at hr
      subst hr
      exact ⟨0, by norm_num⟩
  | succ n ih =>
    intro y hn r hr
    rw [slicesFrom.eq_def] at hr
    split at hr
    · next hlt =>
      rcases List.mem_cons.mp hr with rfl | hr'
      · refine ⟨0, ?_⟩
        rw [Prod.mk.injEq]
        constructor
        · norm_num
        · rw [show y + 1400 * ((0 : Nat) : ℚ) + 1500 = y + 1500 by norm_num]
          exact (min_eq_left (le_of_lt hlt)).symm
      · obtain ⟨i, hi⟩ := ih (y + 1400) (ceil_shift_1400 H y hlt n hn) r hr'
        refine ⟨i + 1, ?_⟩
        rw [hi, Prod.mk.injEq]
        constructor
        · push_cast
          ring
        · congr 1
          push_cast
          ring
    · simp only [List.mem_singleton] at hr
      subst hr
      exact ⟨0, by norm_num⟩

/-- C4: for page height H > 0 the slicing loop emits clips
`[1400·i, min(1400·i + 1500, H))` starting at offset 0 and advancing by
`slice height − overlap = 1400`, stopping once a clip's lower edge reaches
the page height; the clip ranges cover `[0, H)` with no gaps and the loop
terminates after at most `⌈H / 1400⌉` slices. -/
theorem page_slices_cover (H : ℚ) (hH : 0 < H) :
    (∀ r ∈ pageSlices H, ∃ i : Nat,
      r = ((1400 * i : ℚ), min ((1400 * i : ℚ) + 1500) H)) ∧
    (∀ x : ℚ, 0 ≤ x → x < H → ∃ r ∈ pageSlices H, r.1 ≤ x ∧ x < r.2) ∧
    (pageSlices H).length ≤ (⌈H / 1400⌉).toNat := by
  unfold pageSlices
  rw [if_pos hH]
  refine ⟨?_, ?_, ?_⟩
  · intro r hr
    obtain ⟨i, hi⟩ := slicesFrom_shape H (⌈H - 0⌉).toNat 0 le_rfl r hr
    refine ⟨i, ?_⟩
    rw [hi]
    norm_num
  · intro x hx hxH
    exact slicesFrom_covers H x (⌈H - 0⌉).toNat 0 le_rfl hx hxH
  · have hlen := slicesFrom_length_le H (⌈H - 0⌉).toNat 0 le_rfl hH
    simpa using hlen

theorem page_slices_cover_witness :
    (0 : ℚ) < 2000 ∧
    ((∀ r ∈ pageSlices 2000, ∃ i : Nat,
       r = ((1400 * i : ℚ), min ((1400 * i : ℚ) + 1500) 2000)) ∧
     (∀ x : ℚ, 0 ≤ x → x < 2000 → ∃ r ∈ pageSlices 2000, r.1 ≤ x ∧ x < r.2) ∧
     (pageSlices 2000).length ≤ (⌈(2000 : ℚ) / 1400⌉).toNat) :=
  ⟨by norm_num, page_slices_cover 2000 (by norm_num)⟩
